import Mathlib

/-!
Verification of the hd-wallet chain-discovery engine (`src/lib/index.js`).

The JavaScript source is shallowly embedded: each class becomes a structure,
each method a pure function threading the state explicitly; plain JS objects
used as dictionaries become association lists with JS property semantics
(`lookupA` / `setA`, `undefined` becoming `none`); promises that the claims
observe are modelled by deterministic resolution values plus explicit logs of
the derivation calls issued.  Addresses are opaque strings in the source and
are modelled by a type parameter `α` with decidable equality.
-/

namespace HDW

/-- Association-list lookup: the model of reading a property of a plain JS
object (`obj[key]`, `undefined` becoming `none`). -/
def lookupA [DecidableEq κ] (k : κ) : List (κ × β) → Option β
  | [] => none
  | (k', v) :: rest => if k' = k then some v else lookupA k rest

/-- Association-list update: the model of writing a property of a plain JS
object (`obj[key] = v`): replace the binding if present, else append. -/
def setA [DecidableEq κ] (k : κ) (v : β) : List (κ × β) → List (κ × β)
  | [] => [(k, v)]
  | (k', v') :: rest => if k' = k then (k, v) :: rest else (k', v') :: setA k v rest

/-! ## WorkerChannel (`src/lib/index.js` lines 23–63)

The channel keeps a FIFO of pending futures.  Futures are modelled by the
serial number the channel assigns at `postMessage` time; `resolved` logs, in
delivery order, which future was resolved with which reply payload.  The
`attached` flag records whether the worker event handlers are attached
(`open` sets it, `close` clears it; the constructor calls `open`). -/

structure WorkerChannel (μ ρ : Type) where
  pending : List Nat
  nextId : Nat
  resolved : List (Nat × ρ)
  outbox : List μ
  attached : Bool
deriving DecidableEq

/-- The state right after `new WorkerChannel(worker)`: empty pending queue,
handlers attached by the constructor's `open()` call. -/
def WorkerChannel.init (μ ρ : Type) : WorkerChannel μ ρ :=
  { pending := [], nextId := 0, resolved := [], outbox := [], attached := true }

/-- `close()`: detaches the event handlers; nothing else changes. -/
def WorkerChannel.close (ch : WorkerChannel μ ρ) : WorkerChannel μ ρ :=
  { ch with attached := false }

/-- `postMessage(msg)`: push a fresh pending future, transmit the message. -/
def WorkerChannel.postMessage (ch : WorkerChannel μ ρ) (msg : μ) : WorkerChannel μ ρ :=
  { ch with
    pending := ch.pending ++ [ch.nextId]
    nextId := ch.nextId + 1
    outbox := ch.outbox ++ [msg] }

/-- `receiveMessage(event)`: shift the oldest pending future and resolve it
with the payload; if none is pending (`dfd` is `undefined`) nothing happens. -/
def WorkerChannel.receiveMessage (ch : WorkerChannel μ ρ) (payload : ρ) :
    WorkerChannel μ ρ :=
  match ch.pending with
  | [] => ch
  | d :: rest => { ch with pending := rest, resolved := ch.resolved ++ [(d, payload)] }

/-- Post a whole sequence of messages in order. -/
def WorkerChannel.postAll (ch : WorkerChannel μ ρ) (msgs : List μ) : WorkerChannel μ ρ :=
  msgs.foldl WorkerChannel.postMessage ch

/-- Deliver a whole sequence of reply payloads in order. -/
def WorkerChannel.receiveAll (ch : WorkerChannel μ ρ) (rs : List ρ) : WorkerChannel μ ρ :=
  rs.foldl WorkerChannel.receiveMessage ch

/-! ## PrefatchingSource (`src/lib/index.js` lines 92–126)

The slot (`this.prefatched`) holds the range bounds and the pending promise;
the promise is modelled by the value it resolves with (the inner source is a
total function in this model, as the claim concerns the success path).  Each
phase also returns the log of `source.derive` calls it issues. -/

structure PrefetchSlot (α : Type) where
  firstIndex : Nat
  lastIndex : Nat
  promise : List α
deriving DecidableEq

/-- The synchronous prefix of `derive(firstIndex, lastIndex)`: choose the
adopted or fresh promise, clear the slot, log any inner call issued. -/
def prefatchDeriveSync (inner : Nat → Nat → List α) (slot : Option (PrefetchSlot α))
    (firstIndex lastIndex : Nat) :
    List α × Option (PrefetchSlot α) × List (Nat × Nat) :=
  match slot with
  | some p =>
    if p.firstIndex = firstIndex ∧ p.lastIndex = lastIndex then
      (p.promise, none, [])
    else
      (inner firstIndex lastIndex, none, [(firstIndex, lastIndex)])
  | none => (inner firstIndex lastIndex, none, [(firstIndex, lastIndex)])

/-- The `.then` continuation of `derive`: once the chosen promise resolves
with `result`, start the next-range inner derivation, install it as the new
slot, and only then return the result. -/
def prefatchDeriveResolve (inner : Nat → Nat → List α) (firstIndex lastIndex : Nat)
    (result : List α) : List α × Option (PrefetchSlot α) × List (Nat × Nat) :=
  let nf := lastIndex + 1
  let nl := lastIndex + 1 + (lastIndex - firstIndex)
  (result, some ⟨nf, nl, inner nf nl⟩, [(nf, nl)])

/-- `PrefatchingSource.derive` on the success path: the synchronous phase
followed by the resolution continuation; returns the resolved value, the
final slot, and all inner calls in issue order. -/
def prefatchDerive (inner : Nat → Nat → List α) (slot : Option (PrefetchSlot α))
    (firstIndex lastIndex : Nat) :
    List α × Option (PrefetchSlot α) × List (Nat × Nat) :=
  let s := prefatchDeriveSync inner slot firstIndex lastIndex
  let r := prefatchDeriveResolve inner firstIndex lastIndex s.1
  (r.1, r.2.1, s.2.2 ++ r.2.2)

/-! ## CachingSource (`src/lib/index.js` lines 128–156) -/

/-- The cache key `` `${firstIndex}-${lastIndex}` ``. -/
def cacheKey (firstIndex lastIndex : Nat) : String :=
  toString firstIndex ++ "-" ++ toString lastIndex

structure CachingSource (α : Type) where
  cache : List (String × List α)
deriving DecidableEq

/-- `CachingSource.derive`: hit returns the cached value without consulting
the inner source; a miss calls the inner source (modelled as fallible) and
populates the cache only on success.  The boolean reports whether the inner
source was called. -/
def cachingDerive (inner : Nat → Nat → Except ε (List α)) (s : CachingSource α)
    (firstIndex lastIndex : Nat) :
    Except ε (List α) × CachingSource α × Bool :=
  let key := cacheKey firstIndex lastIndex
  match lookupA key s.cache with
  | some v => (Except.ok v, s, false)
  | none =>
    match inner firstIndex lastIndex with
    | Except.ok result => (Except.ok result, ⟨setA key result s.cache⟩, true)
    | Except.error e => (Except.error e, s, true)

/-! ## Chain (`src/lib/index.js` lines 158–185)

The two plain objects `addresses` (index → address) and `indexes`
(address → index) become association lists; the address source is passed as
a function `src first last ↦ addresses` (always succeeding, as the claims
quantify over successful chunks). -/

structure Chain (α : Type) where
  addresses : List (Nat × α)
  indexes : List (α × Nat)
  chunkSize : Nat
  nextIndex : Nat
deriving DecidableEq

/-- The state right after `new Chain(source, chunkSize)`. -/
def Chain.init (α : Type) (chunkSize : Nat) : Chain α :=
  { addresses := [], indexes := [], chunkSize := chunkSize, nextIndex := 0 }

def Chain.indexOf [DecidableEq α] (c : Chain α) (address : α) : Option Nat :=
  lookupA address c.indexes

def Chain.addressOf [DecidableEq α] (c : Chain α) (index : Nat) : Option α :=
  lookupA index c.addresses

/-- The body of `nextChunk`'s `forEach`: insert the returned addresses at
positions `i, i+1, …` into both maps, bumping `nextIndex` once per address. -/
def Chain.insertFrom [DecidableEq α] (c : Chain α) (i : Nat) : List α → Chain α
  | [] => c
  | a :: rest =>
    Chain.insertFrom
      { c with
        addresses := setA i a c.addresses
        indexes := setA a i c.indexes
        nextIndex := c.nextIndex + 1 }
      (i + 1) rest

/-- `nextChunk()`: derive `[nextIndex, nextIndex + chunkSize - 1]` and insert
the results. -/
def Chain.nextChunk [DecidableEq α] (src : Nat → Nat → List α) (c : Chain α) : Chain α :=
  c.insertFrom c.nextIndex (src c.nextIndex (c.nextIndex + c.chunkSize - 1))

/-- `k` successive successful `nextChunk` calls. -/
def Chain.iterate [DecidableEq α] (src : Nat → Nat → List α) (c : Chain α) : Nat → Chain α
  | 0 => c
  | k + 1 => (Chain.iterate src c k).nextChunk src

/-- An address source built from an enumeration `addr` of addresses: for the
range `[f, l]` it returns `addr f, …, addr l` — the requested length; with
`addr` injective the returned addresses are pairwise distinct. -/
def srcOf (addr : Nat → α) : Nat → Nat → List α :=
  fun f l => (List.range (l + 1 - f)).map (fun j => addr (f + j))

/-- The closed form a `Chain` over `srcOf addr` reaches: both maps hold
exactly the bindings for indices `0, …, n-1` in insertion order. -/
def canonicalChain (addr : Nat → α) (chunkSize n : Nat) : Chain α :=
  { addresses := (List.range n).map (fun i => (i, addr i))
    indexes := (List.range n).map (fun i => (addr i, i))
    chunkSize := chunkSize
    nextIndex := n }

/-! ## TxInfo and TxDatabase (`src/lib/index.js` lines 187–226)

`TxInfo` is an opaque record exposing `id`; `toJSON`/`fromJSON` are the
pass-through JSON projection of the wire type (`src/lib/bitcore`), modelled
as the identity. -/

structure TxInfo where
  id : String
  payload : String
deriving DecidableEq

def TxInfo.toJSON (info : TxInfo) : TxInfo := info

def TxInfo.fromJSON (item : TxInfo) : TxInfo := item

structure TxDatabase where
  indexes : List (String × Nat)
  infos : List (Nat × TxInfo)
  nextIndex : Nat
deriving DecidableEq

/-- The state right after `new TxDatabase()`. -/
def TxDatabase.init : TxDatabase :=
  { indexes := [], infos := [], nextIndex := 0 }

def TxDatabase.indexOf (db : TxDatabase) (info : TxInfo) : Option Nat :=
  lookupA info.id db.indexes

def TxDatabase.infoOf (db : TxDatabase) (index : Nat) : Option TxInfo :=
  lookupA index db.infos

def TxDatabase.infoOfId (db : TxDatabase) (id : String) : Option TxInfo :=
  (lookupA id db.indexes).bind (fun index => lookupA index db.infos)

/-- `update(info)`: reuse the existing index for `info.id` or assign the next
fresh one, then store the record at that index. -/
def TxDatabase.update (db : TxDatabase) (info : TxInfo) : TxDatabase :=
  match lookupA info.id db.indexes with
  | some index => { db with infos := setA index info db.infos }
  | none =>
    { db with
      indexes := setA info.id db.nextIndex db.indexes
      infos := setA db.nextIndex info db.infos
      nextIndex := db.nextIndex + 1 }

/-- `restore(data)`: replay `update` over the serialised items in order. -/
def TxDatabase.restore (db : TxDatabase) (data : List TxInfo) : TxDatabase :=
  data.foldl (fun d item => d.update (TxInfo.fromJSON item)) db

/-- Well-formedness of a `TxDatabase`, satisfied by every state reachable
from the constructor: all issued indices are below `nextIndex`, and distinct
tx ids are bound to distinct indices. -/
def TxDatabase.WF (db : TxDatabase) : Prop :=
  (∀ p ∈ db.indexes, p.2 < db.nextIndex) ∧
    (∀ p ∈ db.infos, p.1 < db.nextIndex) ∧
    (∀ p ∈ db.indexes, ∀ q ∈ db.indexes, p.2 = q.2 → p.1 = q.1)

/-- The last item of the list whose id is `id`, if any (the record that a
replay of `update` leaves stored for that id). -/
def lastWith (id : String) : List TxInfo → Option TxInfo
  | [] => none
  | item :: rest =>
    match lastWith id rest with
    | some info => some info
    | none => if item.id = id then some item else none

/-! ## ChainHistory (`src/lib/index.js` lines 228–284)

`histories` maps an address index to the list of values observed for it; a
value is `Option TxInfo` because `restore` stores `database.infoOf(i)`, which
is `undefined` when the database lacks index `i` (the live `update` path
always appends a present value).  The `database` back-reference is passed as
an explicit parameter where a method uses it. -/

structure ChainHistory where
  histories : List (Nat × List (Option TxInfo))
  nextIndex : Nat
  untilBlock : Option String
deriving DecidableEq

/-- The state right after `new ChainHistory(database)`. -/
def ChainHistory.init : ChainHistory :=
  { histories := [], nextIndex := 0, untilBlock := none }

/-- `ChainHistory.update(info, index)`: append `info` to the history at
`index` (creating it if absent), and keep `nextIndex` above `index`. -/
def ChainHistory.update (h : ChainHistory) (info : TxInfo) (index : Nat) : ChainHistory :=
  let hs :=
    match lookupA index h.histories with
    | some l => setA index (l ++ [some info]) h.histories
    | none => setA index [some info] h.histories
  { h with
    histories := hs
    nextIndex := if h.nextIndex ≤ index then index + 1 else h.nextIndex }

/-- The serialised history blob: `untilBlock` plus the positional array whose
gaps (JS holes / `null`) are `none`. -/
structure HistoryData where
  untilBlock : Option String
  list : List (Option (List Nat))
deriving DecidableEq

/-- The loop of `ChainHistory.restore`: walk `data.list` by position, skip
null entries, map stored database indices through `database.infoOf`, and push
`nextIndex` above every position holding an entry. -/
def ChainHistory.restoreGo (db : TxDatabase) (h : ChainHistory) :
    List (Option (List Nat)) → Nat → ChainHistory
  | [], _ => h
  | none :: rest, index => ChainHistory.restoreGo db h rest (index + 1)
  | some idxs :: rest, index =>
    ChainHistory.restoreGo db
      { h with
        histories := setA index (idxs.map db.infoOf) h.histories
        nextIndex := if h.nextIndex ≤ index then index + 1 else h.nextIndex }
      rest (index + 1)

/-- `ChainHistory.restore(data)`: the loop, then `untilBlock` is overwritten
from the blob. -/
def ChainHistory.restore (db : TxDatabase) (h : ChainHistory) (data : HistoryData) :
    ChainHistory :=
  { ChainHistory.restoreGo db h data.list 0 with untilBlock := data.untilBlock }

/-! ## ChainDiscovery (`src/lib/index.js` lines 317–403)

Only the `update`/`gap` step is embedded — the claims concern the decision
taken after a `lookupTxs` batch is processed.  The source stores the
database behind `this.history.database`; here it is a sibling field of the
state.  Emitted events are returned explicitly.  The source's `update` calls
`this.next()` to continue scanning (the class defines the chunk-issuing
method as `nextChunk`); the continuation decision is returned as a boolean
rather than re-entering the loop. -/

inductive DiscoveryEvent
  | transaction (info : TxInfo)
  | history (h : ChainHistory)
deriving DecidableEq

/-- One `lookupTxs` result entry `{info, addresses}`. -/
structure LookupResult (α : Type) where
  info : TxInfo
  addresses : List α
deriving DecidableEq

structure ChainDiscoveryState (α : Type) where
  chain : Chain α
  history : ChainHistory
  database : TxDatabase
  gapLength : Nat
deriving DecidableEq

/-- `gap()` = `chain.nextIndex - history.nextIndex` (JS subtraction, so the
result is an integer). -/
def ChainDiscoveryState.gap (s : ChainDiscoveryState α) : Int :=
  (s.chain.nextIndex : Int) - (s.history.nextIndex : Int)

/-- The inner `addresses.forEach` of `ChainDiscovery.update`: record the tx
under every address the chain knows, tracking whether any matched. -/
def updateAddrs [DecidableEq α] (chain : Chain α) (info : TxInfo) :
    List α → ChainHistory → Bool → ChainHistory × Bool
  | [], h, anyAddress => (h, anyAddress)
  | a :: rest, h, anyAddress =>
    match chain.indexOf a with
    | some index => updateAddrs chain info rest (h.update info index) true
    | none => updateAddrs chain info rest h anyAddress

/-- The outer `results.forEach` of `ChainDiscovery.update`: per result, run
the address pass; on a match, register the tx in the database and emit
`transaction`. -/
def updateGo [DecidableEq α] (chain : Chain α) :
    List (LookupResult α) → ChainHistory → TxDatabase → List DiscoveryEvent → Bool →
    ChainHistory × TxDatabase × List DiscoveryEvent × Bool
  | [], h, db, evs, anyResult => (h, db, evs, anyResult)
  | r :: rest, h, db, evs, anyResult =>
    let pass := updateAddrs chain r.info r.addresses h false
    if pass.2 then
      updateGo chain rest pass.1 (db.update r.info)
        (evs ++ [DiscoveryEvent.transaction r.info]) true
    else
      updateGo chain rest pass.1 db evs anyResult

/-- `ChainDiscovery.update(results)`: process the batch; if any result
matched, either continue scanning (returned boolean `true`, the source's
`this.next()` call) when the gap is still short, or emit `history`. -/
def ChainDiscovery.update [DecidableEq α] (s : ChainDiscoveryState α)
    (results : List (LookupResult α)) :
    ChainDiscoveryState α × List DiscoveryEvent × Bool :=
  let g := updateGo s.chain results s.history s.database [] false
  let s' := { s with history := g.1, database := g.2.1 }
  if g.2.2.2 then
    if s'.gap < (s.gapLength : Int) then
      (s', g.2.2.1, true)
    else
      (s', g.2.2.1 ++ [DiscoveryEvent.history s'.history], false)
  else
    (s', g.2.2.1, false)

/-- The cold-scan state of scenario S1: fresh chain, history and database
(chunk size 20, gap length 20) after the single `nextChunk` that `start`
issues, whose addresses the model enumerates as `0, …, 19`. -/
def coldStart : ChainDiscoveryState Nat :=
  { chain := (Chain.init Nat 20).nextChunk (srcOf (fun n => n))
    history := ChainHistory.init
    database := TxDatabase.init
    gapLength := 20 }

/-- One plus the highest position (offset by the starting index) holding a
non-null entry of the positional array, or 0 when there is none: the value
the `restore` loop leaves in `nextIndex` when starting from a fresh
history. -/
def highestUsedSucc : List (Option (List Nat)) → Nat → Nat
  | [], _ => 0
  | none :: rest, i => highestUsedSucc rest (i + 1)
  | some _ :: rest, i => max (i + 1) (highestUsedSucc rest (i + 1))

/-! # Theorems -/

/-! ## Association-list lemmas -/

theorem lookupA_setA_self [DecidableEq κ] (k : κ) (v : β) (L : List (κ × β)) :
    lookupA k (setA k v L) = some v := by
  induction L with
  | nil => simp [lookupA, setA]
  | cons p rest ih =>
    obtain ⟨k', v'⟩ := p
    by_cases h : k' = k
    · simp [lookupA, setA, h]
    · simp [lookupA, setA, h, ih]

theorem lookupA_setA_of_ne [DecidableEq κ] {k k' : κ} (hne : k ≠ k') (v : β)
    (L : List (κ × β)) : lookupA k' (setA k v L) = lookupA k' L := by
  induction L with
  | nil => simp [lookupA, setA, hne]
  | cons p rest ih =>
    obtain ⟨k₀, v₀⟩ := p
    by_cases h : k₀ = k
    · subst h
      simp [lookupA, setA, hne]
    · by_cases h' : k₀ = k'
      · simp [lookupA, setA, h, h', Ne.symm hne]
      · simp [lookupA, setA, h, h', ih]

theorem setA_eq_append [DecidableEq κ] {k : κ} (v : β) {L : List (κ × β)}
    (h : ∀ p ∈ L, p.1 ≠ k) : setA k v L = L ++ [(k, v)] := by
  induction L with
  | nil => simp [setA]
  | cons p rest ih =>
    obtain ⟨k₀, v₀⟩ := p
    have hk₀ : k₀ ≠ k := h (k₀, v₀) (by simp)
    simp only [setA, if_neg hk₀, List.cons_append]
    rw [ih (fun q hq => h q (by simp [hq]))]

theorem lookupA_eq_none [DecidableEq κ] {k : κ} {L : List (κ × β)}
    (h : ∀ p ∈ L, p.1 ≠ k) : lookupA k L = none := by
  induction L with
  | nil => rfl
  | cons p rest ih =>
    obtain ⟨k₀, v₀⟩ := p
    have hk₀ : k₀ ≠ k := h (k₀, v₀) (by simp)
    simp only [lookupA, if_neg hk₀]
    exact ih (fun q hq => h q (by simp [hq]))

theorem lookupA_mem [DecidableEq κ] {k : κ} {v : β} {L : List (κ × β)}
    (h : lookupA k L = some v) : (k, v) ∈ L := by
  induction L with
  | nil => simp [lookupA] at h
  | cons p rest ih =>
    obtain ⟨k₀, v₀⟩ := p
    by_cases hk : k₀ = k
    · subst hk
      simp [lookupA] at h
      simp [h]
    · simp only [lookupA, if_neg hk] at h
      exact List.mem_cons_of_mem _ (ih h)

theorem mem_setA [DecidableEq κ] {k : κ} {v : β} {p : κ × β} {L : List (κ × β)}
    (h : p ∈ setA k v L) : p = (k, v) ∨ p ∈ L := by
  induction L with
  | nil => simpa [setA] using h
  | cons q rest ih =>
    obtain ⟨k₀, v₀⟩ := q
    by_cases hk : k₀ = k
    · simp only [setA, if_pos hk] at h
      rcases List.mem_cons.mp h with h | h
      · exact Or.inl h
      · exact Or.inr (List.mem_cons_of_mem _ h)
    · simp only [setA, if_neg hk] at h
      rcases List.mem_cons.mp h with h | h
      · exact Or.inr (by simp [h])
      · rcases ih h with h | h
        · exact Or.inl h
        · exact Or.inr (List.mem_cons_of_mem _ h)

theorem lookupA_eq_of_mem_nodup [DecidableEq κ] {k : κ} {v : β} {L : List (κ × β)}
    (hm : (k, v) ∈ L) (hnd : (L.map Prod.fst).Nodup) : lookupA k L = some v := by
  induction L with
  | nil => simp at hm
  | cons p rest ih =>
    obtain ⟨k₀, v₀⟩ := p
    simp only [List.map_cons, List.nodup_cons] at hnd
    rcases List.mem_cons.mp hm with h | h
    · obtain ⟨hk, hv⟩ := Prod.mk.injEq .. ▸ h
      simp [lookupA, hk, hv]
    · by_cases hk : k₀ = k
      · subst hk
        exact absurd (List.mem_map.mpr ⟨(k₀, v), h, rfl⟩) hnd.1
      · simp only [lookupA, if_neg hk]
        exact ih h hnd.2

/-! ## WorkerChannel lemmas -/

theorem range'_cons (s n : Nat) : List.range' s (n + 1) = s :: List.range' (s + 1) n := by
  simp [List.range']

theorem postAll_spec (ch : WorkerChannel μ ρ) (msgs : List μ) :
    (ch.postAll msgs).pending = ch.pending ++ List.range' ch.nextId msgs.length ∧
      (ch.postAll msgs).nextId = ch.nextId + msgs.length ∧
      (ch.postAll msgs).resolved = ch.resolved ∧
      (ch.postAll msgs).attached = ch.attached := by
  induction msgs generalizing ch with
  | nil => simp [WorkerChannel.postAll]
  | cons m rest ih =>
    obtain ⟨h₁, h₂, h₃, h₄⟩ := ih (ch.postMessage m)
    simp only [WorkerChannel.postAll, List.foldl_cons] at h₁ h₂ h₃ h₄ ⊢
    refine ⟨?_, ?_, h₃, h₄⟩
    · rw [h₁, List.length_cons, range'_cons]
      simp [WorkerChannel.postMessage, List.append_assoc]
    · rw [h₂]
      simp [WorkerChannel.postMessage]
      omega

theorem receiveAll_resolved (ch : WorkerChannel μ ρ) (rs : List ρ) :
    (ch.receiveAll rs).resolved = ch.resolved ++ ch.pending.zip rs := by
  induction rs generalizing ch with
  | nil => simp [WorkerChannel.receiveAll]
  | cons r rest ih =>
    have h := ih (ch.receiveMessage r)
    simp only [WorkerChannel.receiveAll, List.foldl_cons] at h ⊢
    rw [h]
    cases hp : ch.pending with
    | nil => simp [WorkerChannel.receiveMessage, hp]
    | cons d pp => simp [WorkerChannel.receiveMessage, hp, List.append_assoc]

theorem zip_range'_getElem {ρ : Type} (n k : Nat) (hk : k < n) (rs : List ρ) :
    ((List.range' 0 n).zip rs)[k]? = (rs[k]?).map (fun r => (k, r)) := by
  cases hr : rs[k]? with
  | none =>
    have hlen : rs.length ≤ k := by
      rcases Nat.lt_or_ge k rs.length with h | h
      · rw [List.getElem?_eq_getElem h] at hr
        cases hr
      · exact h
    rw [List.getElem?_eq_none (by simp [List.length_zip]; omega)]
    rfl
  | some r =>
    rw [List.getElem?_zip_eq_some.mpr ⟨?_, ?_⟩]
    · rfl
    · rw [List.getElem?_range' 0 1 hk]
      simp
    · exact hr

/-- C3: for a sequence of `postMessage` calls on a fresh `WorkerChannel`
followed by in-order reply deliveries, the `k`-th future created (serial
number `k`) is the one resolved with the `k`-th reply payload, for every `k`
below the number of posts. -/
theorem workerChannel_fifo {μ ρ : Type} (msgs : List μ) (rs : List ρ) (k : Nat)
    (hk : k < msgs.length) :
    (((WorkerChannel.init μ ρ).postAll msgs).receiveAll rs).resolved[k]? =
      (rs[k]?).map (fun r => (k, r)) := by
  obtain ⟨h₁, _, h₃, _⟩ := postAll_spec (WorkerChannel.init μ ρ) msgs
  rw [receiveAll_resolved, h₃, h₁]
  simp only [WorkerChannel.init, List.nil_append]
  exact zip_range'_getElem msgs.length k hk rs

/-- Witness for C3: three posts, three in-order replies; the future of the
second post resolves with the second payload. -/
theorem workerChannel_fifo_witness :
    (1 < 3 ∧
      (((WorkerChannel.init Nat Nat).postAll [10, 11, 12]).receiveAll
          [20, 21, 22]).resolved[1]? = some (1, 21)) :=
  ⟨by decide,
    (workerChannel_fifo [10, 11, 12] [20, 21, 22] 1 (by decide)).trans (by decide)⟩

/-- C8 (as the code behaves): a reply arriving while no request is pending is
silently ignored — no future is resolved, the state (including the attached
handlers) is unchanged, and in particular the channel is not closed. -/
theorem workerChannel_reply_without_pending_ignored {μ ρ : Type}
    (ch : WorkerChannel μ ρ) (payload : ρ) (hp : ch.pending = []) :
    ch.receiveMessage payload = ch := by
  unfold WorkerChannel.receiveMessage
  rw [hp]

/-- Witness for the amended C8: a fresh channel receiving a stray reply. -/
theorem workerChannel_reply_without_pending_ignored_witness :
    (WorkerChannel.init Nat Nat).receiveMessage 7 = WorkerChannel.init Nat Nat :=
  workerChannel_reply_without_pending_ignored (WorkerChannel.init Nat Nat) 7 rfl

/-- Counterexample to C8 as stated: on a fresh (open, nothing pending)
channel, `receiveMessage` of a stray reply leaves the handlers attached — the
channel is not closed, and no error state is entered (the source's
`receiveMessage` has no failure path at all). -/
theorem workerChannel_stray_reply_not_closed :
    ((WorkerChannel.init Nat Nat).receiveMessage 7).attached = true ∧
      (WorkerChannel.init Nat Nat).receiveMessage 7 ≠
        ((WorkerChannel.init Nat Nat).receiveMessage 7).close := by
  constructor
  · rfl
  · decide

/-! ## PrefatchingSource -/

/-- C4: `derive(f, l)` adopts the slot's future exactly when the slot matches
`(f, l)` (issuing no fresh inner derivation for that range), otherwise issues
a fresh one; the synchronous phase clears the slot unconditionally; and on
resolution one inner derivation for `[l+1, l+1+(l-f)]` is issued and
installed as the (unique — the slot is a single optional field) outstanding
prefetch before the result is returned. -/
theorem prefatching_derive_spec {α : Type} (inner : Nat → Nat → List α)
    (slot : Option (PrefetchSlot α)) (f l : Nat) :
    (∀ p, slot = some p → p.firstIndex = f → p.lastIndex = l →
        (prefatchDerive inner slot f l).1 = p.promise ∧
          (prefatchDerive inner slot f l).2.2 = [(l + 1, l + 1 + (l - f))]) ∧
      ((∀ p, slot = some p → ¬(p.firstIndex = f ∧ p.lastIndex = l)) →
        (prefatchDerive inner slot f l).1 = inner f l ∧
          (prefatchDerive inner slot f l).2.2 = [(f, l), (l + 1, l + 1 + (l - f))]) ∧
      (prefatchDeriveSync inner slot f l).2.1 = none ∧
      (prefatchDerive inner slot f l).2.1 =
        some ⟨l + 1, l + 1 + (l - f), inner (l + 1) (l + 1 + (l - f))⟩ := by
  refine ⟨?_, ?_, ?_, ?_⟩
  · rintro p rfl hf hl
    simp [prefatchDerive, prefatchDeriveSync, prefatchDeriveResolve, hf, hl]
  · intro hmiss
    cases slot with
    | none => simp [prefatchDerive, prefatchDeriveSync, prefatchDeriveResolve]
    | some p =>
      simp [prefatchDerive, prefatchDeriveSync, prefatchDeriveResolve, hmiss p rfl]
  · cases slot with
    | none => rfl
    | some p =>
      by_cases h : p.firstIndex = f ∧ p.lastIndex = l
      · simp [prefatchDeriveSync, h]
      · simp [prefatchDeriveSync, h]
  · cases slot with
    | none => rfl
    | some p =>
      by_cases h : p.firstIndex = f ∧ p.lastIndex = l
      · simp [prefatchDerive, prefatchDeriveSync, prefatchDeriveResolve, h]
      · simp [prefatchDerive, prefatchDeriveSync, prefatchDeriveResolve, h]

/-- Witness for C4: a matching slot `(0,1)` is adopted (result is the slot's
promise, only the `(2,3)` prefetch is issued) and the new slot holds the
`(2,3)` prefetch. -/
theorem prefatching_derive_spec_witness :
    (prefatchDerive (fun f l => [f, l]) (some ⟨0, 1, [5, 6]⟩) 0 1).1 = [5, 6] ∧
      (prefatchDerive (fun f l => [f, l]) (some ⟨0, 1, [5, 6]⟩) 0 1).2.2 = [(2, 3)] ∧
      (prefatchDerive (fun f l => [f, l]) (some ⟨0, 1, [5, 6]⟩) 0 1).2.1 =
        some ⟨2, 3, [2, 3]⟩ :=
  ⟨((prefatching_derive_spec (fun f l => [f, l]) (some ⟨0, 1, [5, 6]⟩) 0 1).1
      ⟨0, 1, [5, 6]⟩ rfl rfl rfl).1,
    ((prefatching_derive_spec (fun f l => [f, l]) (some ⟨0, 1, [5, 6]⟩) 0 1).1
      ⟨0, 1, [5, 6]⟩ rfl rfl rfl).2,
    ((prefatching_derive_spec (fun f l => [f, l]) (some ⟨0, 1, [5, 6]⟩) 0 1).2.2.2)⟩

/-! ## CachingSource -/

/-- C6: `derive(f, l)` on a cache hit returns the cached list without calling
the inner source; on a miss it calls the inner source, populating the entry
only on success; on inner failure the cache is unchanged and the failure
propagates. -/
theorem caching_derive_spec {α ε : Type} (inner : Nat → Nat → Except ε (List α))
    (s : CachingSource α) (f l : Nat) :
    (∀ v, lookupA (cacheKey f l) s.cache = some v →
        cachingDerive inner s f l = (Except.ok v, s, false)) ∧
      (lookupA (cacheKey f l) s.cache = none →
        (∀ r, inner f l = Except.ok r →
            cachingDerive inner s f l =
              (Except.ok r, ⟨setA (cacheKey f l) r s.cache⟩, true) ∧
              lookupA (cacheKey f l) (cachingDerive inner s f l).2.1.cache = some r) ∧
          (∀ e, inner f l = Except.error e →
            cachingDerive inner s f l = (Except.error e, s, true))) := by
  constructor
  · intro v hv
    simp [cachingDerive, hv]
  · intro hnone
    constructor
    · intro r hr
      simp [cachingDerive, hnone, hr, lookupA_setA_self]
    · intro e he
      simp [cachingDerive, hnone, he]

/-- Witness for C6: one concrete hit, one miss that succeeds and populates
the cache, one miss whose failure propagates and leaves the cache as it
was. -/
theorem caching_derive_spec_witness :
    (cachingDerive (fun f _ => if f = 0 then Except.ok [1, 2] else Except.error 9)
        ⟨[("5-6", [7])]⟩ 5 6 = (Except.ok [7], ⟨[("5-6", [7])]⟩, false)) ∧
      (cachingDerive (fun f _ => if f = 0 then Except.ok [1, 2] else Except.error 9)
        ⟨[("5-6", [7])]⟩ 0 1 =
          (Except.ok [1, 2], ⟨[("5-6", [7]), ("0-1", [1, 2])]⟩, true)) ∧
      (cachingDerive (fun f _ => if f = 0 then Except.ok [1, 2] else Except.error 9)
        ⟨[("5-6", [7])]⟩ 1 2 = (Except.error 9, ⟨[("5-6", [7])]⟩, true)) := by
  refine ⟨?_, ?_, ?_⟩
  · exact (caching_derive_spec (ε := Nat)
      (fun f _ => if f = 0 then Except.ok [1, 2] else Except.error 9)
      ⟨[("5-6", [7])]⟩ 5 6).1 [7] rfl
  · exact (((caching_derive_spec (ε := Nat)
      (fun f _ => if f = 0 then Except.ok [1, 2] else Except.error 9)
      ⟨[("5-6", [7])]⟩ 0 1).2 rfl).1 [1, 2] rfl).1.trans rfl
  · exact ((caching_derive_spec (ε := Nat)
      (fun f _ => if f = 0 then Except.ok [1, 2] else Except.error 9)
      ⟨[("5-6", [7])]⟩ 1 2).2 rfl).2 9 rfl

/-! ## Chain lemmas -/

theorem insertOne_canonical {α : Type} [DecidableEq α] (addr : Nat → α)
    (hinj : Function.Injective addr) (c n : Nat) :
    ({ canonicalChain addr c n with
        addresses := setA n (addr n) (canonicalChain addr c n).addresses
        indexes := setA (addr n) n (canonicalChain addr c n).indexes
        nextIndex := (canonicalChain addr c n).nextIndex + 1 } : Chain α) =
      canonicalChain addr c (n + 1) := by
  unfold canonicalChain
  simp only [Chain.mk.injEq]
  refine ⟨?_, ?_, trivial, trivial⟩
  · rw [setA_eq_append (addr n)
      (by
        intro p hp
        obtain ⟨i, hi, rfl⟩ := List.mem_map.mp hp
        have : i < n := List.mem_range.mp hi
        omega)]
    rw [List.range_succ]
    simp
  · rw [setA_eq_append n
      (by
        intro p hp
        obtain ⟨i, hi, rfl⟩ := List.mem_map.mp hp
        have hi' : i < n := List.mem_range.mp hi
        intro h
        have := hinj h
        omega)]
    rw [List.range_succ]
    simp

theorem insertFrom_canonical {α : Type} [DecidableEq α] (addr : Nat → α)
    (hinj : Function.Injective addr) (c : Nat) :
    ∀ len n, Chain.insertFrom (canonicalChain addr c n) n
        ((List.range len).map (fun j => addr (n + j))) =
      canonicalChain addr c (n + len) := by
  intro len
  induction len with
  | zero =>
    intro n
    simp [Chain.insertFrom]
  | succ m ih =>
    intro n
    have hlist : (List.range (m + 1)).map (fun j => addr (n + j)) =
        addr n :: (List.range m).map (fun j => addr (n + 1 + j)) := by
      rw [List.range_succ_eq_map]
      simp only [List.map_cons, List.map_map, Nat.add_zero]
      congr 1
      apply List.map_congr_left
      intro x _
      simp only [Function.comp_apply, Nat.succ_eq_add_one]
      congr 1
      omega
    rw [hlist]
    simp only [Chain.insertFrom]
    rw [insertOne_canonical addr hinj c n]
    have := ih (n + 1)
    rw [show n + (m + 1) = n + 1 + m by omega]
    exact this

theorem iterate_canonical {α : Type} [DecidableEq α] (addr : Nat → α)
    (hinj : Function.Injective addr) (c : Nat) (hc : 0 < c) :
    ∀ k, Chain.iterate (srcOf addr) (Chain.init α c) k = canonicalChain addr c (k * c) := by
  intro k
  induction k with
  | zero =>
    simp [Chain.iterate, Chain.init, canonicalChain]
  | succ k ih =>
    show (Chain.iterate (srcOf addr) (Chain.init α c) k).nextChunk (srcOf addr) = _
    rw [ih]
    unfold Chain.nextChunk srcOf
    simp only [canonicalChain]
    rw [show k * c + c - 1 + 1 - k * c = c by omega]
    have := insertFrom_canonical addr hinj c c (k * c)
    simp only [canonicalChain] at this
    rw [this]
    rw [show k * c + c = (k + 1) * c by ring]

theorem canonical_addressOf {α : Type} [DecidableEq α] (addr : Nat → α)
    (c n i : Nat) (hi : i < n) :
    (canonicalChain addr c n).addressOf i = some (addr i) := by
  show lookupA i ((List.range n).map fun i => (i, addr i)) = some (addr i)
  apply lookupA_eq_of_mem_nodup
  · exact List.mem_map.mpr ⟨i, List.mem_range.mpr hi, rfl⟩
  · rw [List.map_map]
    have : (Prod.fst ∘ fun i => (i, addr i)) = (fun i : Nat => i) := rfl
    rw [this, List.map_id']
    exact List.nodup_range n

theorem canonical_indexOf {α : Type} [DecidableEq α] (addr : Nat → α)
    (hinj : Function.Injective addr) (c n i : Nat) (hi : i < n) :
    (canonicalChain addr c n).indexOf (addr i) = some i := by
  show lookupA (addr i) ((List.range n).map fun i => (addr i, i)) = some i
  apply lookupA_eq_of_mem_nodup
  · exact List.mem_map.mpr ⟨i, List.mem_range.mpr hi, rfl⟩
  · rw [List.map_map]
    have : (Prod.fst ∘ fun i => (addr i, i)) = addr := rfl
    rw [this]
    exact List.Nodup.map hinj (List.nodup_range n)

/-- C5: over a source enumerating pairwise-distinct addresses of the
requested length, `k` successful `nextChunk` calls leave
`nextIndex = k·chunkSize`, both maps with exactly that many entries, and the
two maps exact inverses: `addressOf (indexOf a) = a` for every inserted
address and `indexOf (addressOf i) = i` for every `i < nextIndex`. -/
theorem chain_bimap_invariants {α : Type} [DecidableEq α] (addr : Nat → α)
    (hinj : Function.Injective addr) (c k : Nat) (hc : 0 < c) :
    (Chain.iterate (srcOf addr) (Chain.init α c) k).nextIndex = k * c ∧
      (Chain.iterate (srcOf addr) (Chain.init α c) k).addresses.length = k * c ∧
      (Chain.iterate (srcOf addr) (Chain.init α c) k).indexes.length = k * c ∧
      (∀ i, i < k * c →
        (Chain.iterate (srcOf addr) (Chain.init α c) k).addressOf i = some (addr i) ∧
        (Chain.iterate (srcOf addr) (Chain.init α c) k).indexOf (addr i) = some i ∧
        ((Chain.iterate (srcOf addr) (Chain.init α c) k).indexOf (addr i)).bind
            (Chain.iterate (srcOf addr) (Chain.init α c) k).addressOf = some (addr i) ∧
        ((Chain.iterate (srcOf addr) (Chain.init α c) k).addressOf i).bind
            (fun a => (Chain.iterate (srcOf addr) (Chain.init α c) k).indexOf a) =
          some i) := by
  rw [iterate_canonical addr hinj c hc k]
  refine ⟨rfl, by simp [canonicalChain], by simp [canonicalChain], ?_⟩
  intro i hi
  have h₁ := canonical_addressOf addr c (k * c) i hi
  have h₂ := canonical_indexOf addr hinj c (k * c) i hi
  exact ⟨h₁, h₂, by rw [h₂]; exact h₁, by rw [h₁]; exact h₂⟩

/-- Witness for C5: `addr = id` on `Nat`, chunk size 2, two chunks. -/
theorem chain_bimap_invariants_witness :
    Function.Injective (fun n : Nat => n) ∧ 0 < 2 ∧
      ((Chain.iterate (srcOf (fun n : Nat => n)) (Chain.init Nat 2) 2).nextIndex = 2 * 2 ∧
        (Chain.iterate (srcOf (fun n : Nat => n)) (Chain.init Nat 2) 2).addresses.length =
          2 * 2 ∧
        (Chain.iterate (srcOf (fun n : Nat => n)) (Chain.init Nat 2) 2).indexes.length =
          2 * 2 ∧
        (∀ i, i < 2 * 2 →
          (Chain.iterate (srcOf (fun n : Nat => n)) (Chain.init Nat 2) 2).addressOf i =
            some i ∧
          (Chain.iterate (srcOf (fun n : Nat => n)) (Chain.init Nat 2) 2).indexOf i =
            some i ∧
          ((Chain.iterate (srcOf (fun n : Nat => n)) (Chain.init Nat 2) 2).indexOf i).bind
              (Chain.iterate (srcOf (fun n : Nat => n)) (Chain.init Nat 2) 2).addressOf =
            some i ∧
          ((Chain.iterate (srcOf (fun n : Nat => n)) (Chain.init Nat 2) 2).addressOf i).bind
              (fun a =>
                (Chain.iterate (srcOf (fun n : Nat => n)) (Chain.init Nat 2) 2).indexOf a) =
            some i)) :=
  ⟨fun _ _ h => h, by decide,
    chain_bimap_invariants (fun n : Nat => n) (fun _ _ h => h) 2 2 (by decide)⟩

/-! ## TxDatabase lemmas -/

theorem update_wf (db : TxDatabase) (info : TxInfo) (hwf : db.WF) :
    (db.update info).WF := by
  obtain ⟨h₁, h₂, h₃⟩ := hwf
  unfold TxDatabase.update
  cases h : lookupA info.id db.indexes with
  | some idx =>
    refine ⟨h₁, ?_, h₃⟩
    intro p hp
    rcases mem_setA hp with rfl | hp
    · exact h₁ _ (lookupA_mem h)
    · exact h₂ p hp
  | none =>
    refine ⟨?_, ?_, ?_⟩
    · intro p hp
      rcases mem_setA hp with rfl | hp
      · exact Nat.lt_succ_self _
      · exact Nat.lt_succ_of_lt (h₁ p hp)
    · intro p hp
      rcases mem_setA hp with rfl | hp
      · exact Nat.lt_succ_self _
      · exact Nat.lt_succ_of_lt (h₂ p hp)
    · intro p hp q hq heq
      rcases mem_setA hp with rfl | hp <;> rcases mem_setA hq with rfl | hq
      · rfl
      · have hq' := h₁ q hq
        have heq' : db.nextIndex = q.2 := heq
        omega
      · have hp' := h₁ p hp
        have heq' : p.2 = db.nextIndex := heq
        omega
      · exact h₃ p hp q hq heq

theorem update_index_pres {db : TxDatabase} {id : String} {idx : Nat} (info : TxInfo)
    (hid : lookupA id db.indexes = some idx) :
    lookupA id (db.update info).indexes = some idx := by
  unfold TxDatabase.update
  cases h : lookupA info.id db.indexes with
  | some j => exact hid
  | none =>
    have hne : info.id ≠ id := by
      rintro rfl
      rw [h] at hid
      cases hid
    rw [lookupA_setA_of_ne hne]
    exact hid

theorem update_nextIndex_mono (db : TxDatabase) (info : TxInfo) :
    db.nextIndex ≤ (db.update info).nextIndex := by
  unfold TxDatabase.update
  cases h : lookupA info.id db.indexes with
  | some j => exact le_refl _
  | none => exact Nat.le_succ _

theorem update_infoOfId_self (db : TxDatabase) (info : TxInfo) :
    (db.update info).infoOfId info.id = some info := by
  unfold TxDatabase.update TxDatabase.infoOfId
  cases h : lookupA info.id db.indexes with
  | some idx =>
    simp only [h, Option.bind_some]
    exact lookupA_setA_self idx info db.infos
  | none =>
    simp only [lookupA_setA_self, Option.bind_some]
    exact lookupA_setA_self db.nextIndex info db.infos

theorem update_infoOfId_other {db : TxDatabase} {id : String} (info : TxInfo)
    (hwf : db.WF) (hne : info.id ≠ id) :
    (db.update info).infoOfId id = db.infoOfId id := by
  obtain ⟨h₁, _, h₃⟩ := hwf
  unfold TxDatabase.update TxDatabase.infoOfId
  cases h : lookupA info.id db.indexes with
  | some idx =>
    cases hid : lookupA id db.indexes with
    | none => rfl
    | some j =>
      have hji : j ≠ idx := by
        intro heq
        have := h₃ (id, j) (lookupA_mem hid) (info.id, idx) (lookupA_mem h) (by simp [heq])
        exact hne this.symm
      simp only [Option.bind_some]
      exact lookupA_setA_of_ne (Ne.symm hji) info db.infos
  | none =>
    rw [lookupA_setA_of_ne hne]
    cases hid : lookupA id db.indexes with
    | none => rfl
    | some j =>
      have hj : j < db.nextIndex := h₁ (id, j) (lookupA_mem hid)
      simp only [Option.bind_some]
      exact lookupA_setA_of_ne (fun heq => absurd (heq ▸ hj) (lt_irrefl _)) info db.infos

theorem restore_wf (data : List TxInfo) : ∀ db : TxDatabase, db.WF → (db.restore data).WF := by
  induction data with
  | nil => exact fun db h => h
  | cons item rest ih =>
    intro db hwf
    exact ih (db.update item) (update_wf db item hwf)

theorem restore_index_pres (data : List TxInfo) :
    ∀ (db : TxDatabase) (id : String) (idx : Nat), lookupA id db.indexes = some idx →
      lookupA id (db.restore data).indexes = some idx := by
  induction data with
  | nil => exact fun _ _ _ h => h
  | cons item rest ih =>
    intro db id idx hid
    exact ih (db.update item) id idx (update_index_pres item hid)

theorem restore_nextIndex_mono (data : List TxInfo) :
    ∀ db : TxDatabase, db.nextIndex ≤ (db.restore data).nextIndex := by
  induction data with
  | nil => exact fun _ => le_refl _
  | cons item rest ih =>
    intro db
    exact le_trans (update_nextIndex_mono db item) (ih (db.update item))

theorem restore_fresh_index (data : List TxInfo) :
    ∀ (db : TxDatabase) (id : String) (idx : Nat), lookupA id db.indexes = none →
      lookupA id (db.restore data).indexes = some idx → db.nextIndex ≤ idx := by
  induction data with
  | nil =>
    intro db id idx h0 h1
    have h1' : lookupA id db.indexes = some idx := h1
    rw [h0] at h1'
    cases h1'
  | cons item rest ih =>
    intro db id idx h0 h1
    cases hmid : lookupA id (db.update item).indexes with
    | some j =>
      have hj := restore_index_pres rest (db.update item) id j hmid
      have : j = idx := by
        rw [show (db.restore (item :: rest)) = ((db.update item).restore rest) from rfl] at h1
        rw [hj] at h1
        exact (Option.some.injEq .. ▸ h1)
      subst this
      unfold TxDatabase.update at hmid
      cases hii : lookupA item.id db.indexes with
      | some k =>
        rw [hii] at hmid
        rw [hmid] at h0
        cases h0
      | none =>
        rw [hii] at hmid
        by_cases heq : item.id = id
        · subst heq
          rw [lookupA_setA_self] at hmid
          cases hmid
          exact le_refl _
        · rw [lookupA_setA_of_ne heq] at hmid
          rw [hmid] at h0
          cases h0
    | none =>
      have h1' : lookupA id ((db.update item).restore rest).indexes = some idx := h1
      exact le_trans (update_nextIndex_mono db item) (ih (db.update item) id idx hmid h1')

theorem restore_infoOfId (data : List TxInfo) :
    ∀ (db : TxDatabase) (id : String), db.WF →
      (db.restore data).infoOfId id =
        match lastWith id data with
        | some info => some info
        | none => db.infoOfId id := by
  induction data with
  | nil => intro db id _; rfl
  | cons item rest ih =>
    intro db id hwf
    have hstep : (db.restore (item :: rest)) = ((db.update item).restore rest) := rfl
    rw [hstep, ih (db.update item) id (update_wf db item hwf)]
    cases hl : lastWith id rest with
    | some info => simp [lastWith, hl]
    | none =>
      by_cases heq : item.id = id
      · subst heq
        simp [lastWith, hl, update_infoOfId_self]
      · simp [lastWith, hl, heq, update_infoOfId_other item hwf heq]

theorem lastWith_eq_none {id : String} {data : List TxInfo}
    (h : ∀ item ∈ data, item.id ≠ id) : lastWith id data = none := by
  induction data with
  | nil => rfl
  | cons item rest ih =>
    have hrest := ih (fun q hq => h q (List.mem_cons_of_mem _ hq))
    simp [lastWith, hrest, h item (List.mem_cons_self item rest)]

/-- C7: `update(info)` inserts under the fresh dense index `nextIndex` when
`info.id` is absent (the index is unused in both maps), and otherwise
overwrites the stored record in place preserving the id's index; afterwards
`infoOf (indexOf info) = info`. -/
theorem txDatabase_update_spec (db : TxDatabase) (info : TxInfo) (hwf : db.WF) :
    (∀ idx, db.indexOf info = some idx →
        (db.update info).indexes = db.indexes ∧
          (db.update info).nextIndex = db.nextIndex ∧
          (db.update info).indexOf info = some idx ∧
          (db.update info).infoOf idx = some info) ∧
      (db.indexOf info = none →
        (db.update info).indexOf info = some db.nextIndex ∧
          db.infoOf db.nextIndex = none ∧
          (∀ p ∈ db.indexes, p.2 ≠ db.nextIndex) ∧
          (db.update info).nextIndex = db.nextIndex + 1) ∧
      ((db.update info).indexOf info).bind (db.update info).infoOf = some info := by
  obtain ⟨h₁, h₂, _⟩ := hwf
  refine ⟨?_, ?_, update_infoOfId_self db info⟩
  · intro idx hidx
    unfold TxDatabase.indexOf at hidx
    unfold TxDatabase.update TxDatabase.indexOf TxDatabase.infoOf
    rw [hidx]
    exact ⟨rfl, rfl, hidx, lookupA_setA_self idx info db.infos⟩
  · intro hnone
    unfold TxDatabase.indexOf at hnone
    unfold TxDatabase.update TxDatabase.indexOf TxDatabase.infoOf
    rw [hnone]
    refine ⟨lookupA_setA_self info.id db.nextIndex db.indexes, ?_, ?_, rfl⟩
    · exact lookupA_eq_none
        (fun p hp => fun heq => absurd (heq ▸ h₂ p hp) (lt_irrefl _))
    · exact fun p hp heq => absurd (heq ▸ h₁ p hp) (lt_irrefl _)

/-- Witness for C7: updating a fresh database with one record. -/
theorem txDatabase_update_spec_witness :
    (TxDatabase.init.update ⟨"a", "x"⟩).indexOf ⟨"a", "x"⟩ = some 0 ∧
      (TxDatabase.init.update ⟨"a", "x"⟩).nextIndex = 1 ∧
      ((TxDatabase.init.update ⟨"a", "x"⟩).indexOf ⟨"a", "x"⟩).bind
          (TxDatabase.init.update ⟨"a", "x"⟩).infoOf = some ⟨"a", "x"⟩ := by
  have h := txDatabase_update_spec TxDatabase.init ⟨"a", "x"⟩
    ⟨by simp [TxDatabase.init], by simp [TxDatabase.init], by simp [TxDatabase.init]⟩
  exact ⟨(h.2.1 rfl).1, (h.2.1 rfl).2.2.2, h.2.2⟩

/-- C10: `restore(data)` does not clear: it replays `update` over the items
in order, so pre-existing id→index bindings survive unchanged, records whose
id never occurs in `data` are untouched, ids new to the database are
appended at indices at or above the old `nextIndex`, and an id occurring in
`data` ends up mapped (at its preserved index if pre-existing) to the last
item of `data` carrying it. -/
theorem txDatabase_restore_spec (db : TxDatabase) (data : List TxInfo) (hwf : db.WF) :
    db.restore data = data.foldl (fun d item => d.update (TxInfo.fromJSON item)) db ∧
      (∀ id idx, lookupA id db.indexes = some idx →
        lookupA id (db.restore data).indexes = some idx) ∧
      (∀ id, (∀ item ∈ data, item.id ≠ id) →
        (db.restore data).infoOfId id = db.infoOfId id) ∧
      (∀ id idx, lookupA id db.indexes = none →
        lookupA id (db.restore data).indexes = some idx → db.nextIndex ≤ idx) ∧
      (∀ id info, lastWith id data = some info →
        (db.restore data).infoOfId id = some info) := by
  refine ⟨rfl, restore_index_pres data db, ?_, restore_fresh_index data db, ?_⟩
  · intro id hnot
    rw [restore_infoOfId data db id hwf, lastWith_eq_none hnot]
  · intro id info hlast
    rw [restore_infoOfId data db id hwf, hlast]

/-- Witness for C10: a database holding ids "a" (index 0) and "b" (index 1)
restored over items `b', c`: "a" keeps record and index, "b" is overwritten
in place, "c" appears at an index at or above the pre-restore `nextIndex`. -/
theorem txDatabase_restore_spec_witness :
    lookupA "a" (((TxDatabase.init.update ⟨"a", "1"⟩).update ⟨"b", "2"⟩).restore
        [⟨"b", "3"⟩, ⟨"c", "4"⟩]).indexes = some 0 ∧
      (((TxDatabase.init.update ⟨"a", "1"⟩).update ⟨"b", "2"⟩).restore
        [⟨"b", "3"⟩, ⟨"c", "4"⟩]).infoOfId "a" = some ⟨"a", "1"⟩ ∧
      (((TxDatabase.init.update ⟨"a", "1"⟩).update ⟨"b", "2"⟩).restore
        [⟨"b", "3"⟩, ⟨"c", "4"⟩]).infoOfId "b" = some ⟨"b", "3"⟩ ∧
      (2 : Nat) ≤ 2 := by
  have h := txDatabase_restore_spec ((TxDatabase.init.update ⟨"a", "1"⟩).update ⟨"b", "2"⟩)
    [⟨"b", "3"⟩, ⟨"c", "4"⟩] (by unfold TxDatabase.WF; decide)
  refine ⟨h.2.1 "a" 0 (by decide), h.2.2.1 "a" (by decide), h.2.2.2.2 "b" ⟨"b", "3"⟩ rfl, ?_⟩
  exact h.2.2.2.1 "c" 2 (by decide) (by decide)

/-! ## ChainHistory restore lemmas -/

theorem restoreGo_lookup (db : TxDatabase) (i : Nat) :
    ∀ (list : List (Option (List Nat))) (index : Nat) (h : ChainHistory),
      lookupA i (ChainHistory.restoreGo db h list index).histories =
        if index ≤ i then
          match (list[i - index]?).join with
          | some idxs => some (idxs.map db.infoOf)
          | none => lookupA i h.histories
        else lookupA i h.histories := by
  intro list
  induction list with
  | nil =>
    intro index h
    simp only [ChainHistory.restoreGo, List.getElem?_nil, Option.join]
    split <;> rfl
  | cons x rest ih =>
    intro index h
    cases x with
    | none =>
      show lookupA i (ChainHistory.restoreGo db h rest (index + 1)).histories = _
      rw [ih (index + 1) h]
      by_cases h1 : index + 1 ≤ i
      · have h0 : index ≤ i := by omega
        have hsub : i - index = (i - (index + 1)) + 1 := by omega
        rw [if_pos h1, if_pos h0, hsub]
        simp only [List.getElem?_cons_succ]
      · by_cases h0 : index ≤ i
        · have hsub : i - index = 0 := by omega
          rw [if_neg h1, if_pos h0, hsub]
          simp only [List.getElem?_cons_zero, Option.join]
          rfl
        · rw [if_neg h1, if_neg h0]
    | some idxs =>
      show lookupA i (ChainHistory.restoreGo db
        { h with
          histories := setA index (idxs.map db.infoOf) h.histories
          nextIndex := if h.nextIndex ≤ index then index + 1 else h.nextIndex }
        rest (index + 1)).histories = _
      rw [ih (index + 1) _]
      by_cases h1 : index + 1 ≤ i
      · have h0 : index ≤ i := by omega
        have hne : index ≠ i := by omega
        have hsub : i - index = (i - (index + 1)) + 1 := by omega
        rw [if_pos h1, if_pos h0, hsub]
        simp only [List.getElem?_cons_succ]
        cases hj : (rest[i - (index + 1)]?).join with
        | some l => simp [hj]
        | none => simp [hj, lookupA_setA_of_ne hne]
      · by_cases h0 : index ≤ i
        · have hieq : i = index := by omega
          subst hieq
          have hsub : i - i = 0 := by omega
          rw [if_neg h1, if_pos h0, hsub]
          simp only [List.getElem?_cons_zero, Option.join, lookupA_setA_self]
          rfl
        · have hne : index ≠ i := by omega
          rw [if_neg h1, if_neg h0]
          exact lookupA_setA_of_ne hne _ _

theorem restoreGo_nextIndex (db : TxDatabase) :
    ∀ (list : List (Option (List Nat))) (index : Nat) (h : ChainHistory),
      (ChainHistory.restoreGo db h list index).nextIndex =
        max h.nextIndex (highestUsedSucc list index) := by
  intro list
  induction list with
  | nil =>
    intro index h
    simp [ChainHistory.restoreGo, highestUsedSucc]
  | cons x rest ih =>
    intro index h
    cases x with
    | none =>
      show (ChainHistory.restoreGo db h rest (index + 1)).nextIndex = _
      rw [ih (index + 1) h]
      rfl
    | some idxs =>
      show (ChainHistory.restoreGo db
        { h with
          histories := setA index (idxs.map db.infoOf) h.histories
          nextIndex := if h.nextIndex ≤ index then index + 1 else h.nextIndex }
        rest (index + 1)).nextIndex = _
      rw [ih (index + 1) _]
      show max (if h.nextIndex ≤ index then index + 1 else h.nextIndex)
          (highestUsedSucc rest (index + 1)) =
        max h.nextIndex (max (index + 1) (highestUsedSucc rest (index + 1)))
      simp only [Nat.max_def]
      split_ifs <;> omega

theorem highestUsedSucc_lower :
    ∀ (list : List (Option (List Nat))) (start pos : Nat) (idxs : List Nat),
      list[pos]? = some (some idxs) → start + pos + 1 ≤ highestUsedSucc list start := by
  intro list
  induction list with
  | nil =>
    intro start pos idxs hget
    simp at hget
  | cons x rest ih =>
    intro start pos idxs hget
    cases pos with
    | zero =>
      simp only [List.getElem?_cons_zero] at hget
      cases hget
      show start + 0 + 1 ≤ max (start + 1) (highestUsedSucc rest (start + 1))
      have := Nat.le_max_left (start + 1) (highestUsedSucc rest (start + 1))
      omega
    | succ p =>
      simp only [List.getElem?_cons_succ] at hget
      have hrest := ih (start + 1) p idxs hget
      cases x with
      | none =>
        show start + (p + 1) + 1 ≤ highestUsedSucc rest (start + 1)
        omega
      | some l =>
        show start + (p + 1) + 1 ≤ max (start + 1) (highestUsedSucc rest (start + 1))
        have := Nat.le_max_right (start + 1) (highestUsedSucc rest (start + 1))
        omega

theorem highestUsedSucc_hit :
    ∀ (list : List (Option (List Nat))) (start : Nat),
      highestUsedSucc list start = 0 ∨
        (start + 1 ≤ highestUsedSucc list start ∧
          ∃ idxs, list[highestUsedSucc list start - 1 - start]? = some (some idxs)) := by
  intro list
  induction list with
  | nil => intro start; exact Or.inl rfl
  | cons x rest ih =>
    intro start
    cases x with
    | none =>
      show highestUsedSucc rest (start + 1) = 0 ∨
        (start + 1 ≤ highestUsedSucc rest (start + 1) ∧
          ∃ idxs, (none :: rest)[highestUsedSucc rest (start + 1) - 1 - start]? =
            some (some idxs))
      rcases ih (start + 1) with h | ⟨hge, idxs, hget⟩
      · exact Or.inl h
      · refine Or.inr ⟨by omega, idxs, ?_⟩
        have hsub : highestUsedSucc rest (start + 1) - 1 - start =
            (highestUsedSucc rest (start + 1) - 1 - (start + 1)) + 1 := by omega
        rw [hsub]
        simpa using hget
    | some l =>
      show max (start + 1) (highestUsedSucc rest (start + 1)) = 0 ∨
        (start + 1 ≤ max (start + 1) (highestUsedSucc rest (start + 1)) ∧
          ∃ idxs,
            (some l :: rest)[max (start + 1) (highestUsedSucc rest (start + 1)) - 1 -
              start]? = some (some idxs))
      rcases ih (start + 1) with h | ⟨hge, idxs, hget⟩
      · refine Or.inr ⟨Nat.le_max_left _ _, l, ?_⟩
        have hmax : max (start + 1) (highestUsedSucc rest (start + 1)) = start + 1 := by
          rw [h]
          simp
        rw [hmax]
        have hsub : start + 1 - 1 - start = 0 := by omega
        rw [hsub]
        simp
      · refine Or.inr ⟨Nat.le_max_left _ _, idxs, ?_⟩
        have hmax : max (start + 1) (highestUsedSucc rest (start + 1)) =
            highestUsedSucc rest (start + 1) := by
          have := Nat.le_max_right (start + 1) (highestUsedSucc rest (start + 1))
          omega
        rw [hmax]
        have hsub : highestUsedSucc rest (start + 1) - 1 - start =
            (highestUsedSucc rest (start + 1) - 1 - (start + 1)) + 1 := by omega
        rw [hsub]
        simpa using hget

/-- C9: restoring a blob into a freshly constructed `ChainHistory` creates an
entry exactly at each non-null position of `data.list` (null gaps stay
absent), each entry being the stored index list mapped through
`TxDatabase.infoOf`; `untilBlock` is set from the blob; and `nextIndex` ends
one above the highest non-null position (0 when there is none): every
non-null position lies below it, and, unless it is 0, the position just
below it is non-null. -/
theorem chainHistory_restore_spec (db : TxDatabase) (data : HistoryData) :
    (∀ i, lookupA i (ChainHistory.restore db ChainHistory.init data).histories =
        (Option.join data.list[i]?).map (fun idxs => idxs.map db.infoOf)) ∧
      (ChainHistory.restore db ChainHistory.init data).untilBlock = data.untilBlock ∧
      (ChainHistory.restore db ChainHistory.init data).nextIndex =
        highestUsedSucc data.list 0 ∧
      (∀ pos idxs, data.list[pos]? = some (some idxs) →
        pos < (ChainHistory.restore db ChainHistory.init data).nextIndex) ∧
      ((ChainHistory.restore db ChainHistory.init data).nextIndex ≠ 0 →
        ∃ idxs,
          data.list[(ChainHistory.restore db ChainHistory.init data).nextIndex - 1]? =
            some (some idxs)) := by
  have hnext : (ChainHistory.restore db ChainHistory.init data).nextIndex =
      highestUsedSucc data.list 0 := by
    show (ChainHistory.restoreGo db ChainHistory.init data.list 0).nextIndex = _
    rw [restoreGo_nextIndex db data.list 0 ChainHistory.init]
    show max 0 _ = _
    simp
  refine ⟨?_, rfl, hnext, ?_, ?_⟩
  · intro i
    show lookupA i (ChainHistory.restoreGo db ChainHistory.init data.list 0).histories = _
    rw [restoreGo_lookup db i data.list 0 ChainHistory.init]
    rw [if_pos (Nat.zero_le i)]
    rw [show i - 0 = i from rfl]
    cases hj : (data.list[i]?).join with
    | some l => simp [hj]
    | none => simp [hj, ChainHistory.init, lookupA]
  · intro pos idxs hget
    rw [hnext]
    have := highestUsedSucc_lower data.list 0 pos idxs hget
    omega
  · intro hne
    rw [hnext] at hne ⊢
    rcases highestUsedSucc_hit data.list 0 with h | ⟨_, idxs, hget⟩
    · exact absurd h hne
    · exact ⟨idxs, by simpa using hget⟩

/-- Witness for C9: a database holding one record restored from a blob whose
list is `[null, [0, 5]]` — the entry appears at position 1 only, mapping
index 0 to the record and the dangling index 5 to nothing, and `nextIndex`
becomes 2. -/
theorem chainHistory_restore_spec_witness :
    lookupA 1 (ChainHistory.restore (TxDatabase.init.update ⟨"t", "x"⟩)
        ChainHistory.init ⟨some "B", [none, some [0, 5]]⟩).histories =
      some [some ⟨"t", "x"⟩, none] ∧
      (ChainHistory.restore (TxDatabase.init.update ⟨"t", "x"⟩)
        ChainHistory.init ⟨some "B", [none, some [0, 5]]⟩).untilBlock = some "B" ∧
      1 < (ChainHistory.restore (TxDatabase.init.update ⟨"t", "x"⟩)
        ChainHistory.init ⟨some "B", [none, some [0, 5]]⟩).nextIndex := by
  have h := chainHistory_restore_spec (TxDatabase.init.update ⟨"t", "x"⟩)
    ⟨some "B", [none, some [0, 5]]⟩
  exact ⟨(h.1 1).trans (by decide), h.2.1, h.2.2.2.1 1 [0, 5] (by decide)⟩

/-! ## ChainDiscovery lemmas -/

theorem updateGo_events {α : Type} [DecidableEq α] (chain : Chain α) :
    ∀ (rs : List (LookupResult α)) (h : ChainHistory) (db : TxDatabase)
      (evs : List DiscoveryEvent) (anyR : Bool) (e : DiscoveryEvent),
      e ∈ (updateGo chain rs h db evs anyR).2.2.1 →
      e ∈ evs ∨ ∃ info, e = DiscoveryEvent.transaction info := by
  intro rs
  induction rs with
  | nil =>
    intro h db evs anyR e he
    exact Or.inl he
  | cons r rest ih =>
    intro h db evs anyR e he
    simp only [updateGo] at he
    split at he
    · rcases ih _ _ _ _ e he with h' | h'
      · rcases List.mem_append.mp h' with h'' | h''
        · exact Or.inl h''
        · exact Or.inr ⟨r.info, by simpa using h''⟩
      · exact Or.inr h'
    · exact ih _ _ _ _ e he

/-- C1: whenever `ChainDiscovery.update` emits `history`, the gap
`chain.nextIndex - history.nextIndex` measured at that moment (i.e. on the
post-update state) is at least `gapLength`; and whenever it instead
continues scanning by issuing another chunk, the strict inequality
`gap < gapLength` held at that resumption point. -/
theorem chainDiscovery_update_gap {α : Type} [DecidableEq α]
    (s : ChainDiscoveryState α) (results : List (LookupResult α)) :
    (∀ hist, DiscoveryEvent.history hist ∈ (ChainDiscovery.update s results).2.1 →
        ((ChainDiscovery.update s results).1.gapLength : Int) ≤
          (ChainDiscovery.update s results).1.gap) ∧
      ((ChainDiscovery.update s results).2.2 = true →
        (ChainDiscovery.update s results).1.gap <
          ((ChainDiscovery.update s results).1.gapLength : Int)) := by
  have hpure := updateGo_events s.chain results s.history s.database [] false
  simp only [ChainDiscovery.update]
  split
  · split
    · refine ⟨?_, fun _ => by assumption⟩
      intro hist hmem
      rcases hpure _ hmem with h' | ⟨info, h'⟩
      · cases h'
      · cases h'
    · refine ⟨?_, fun h => by cases h⟩
      intro hist hmem
      rcases List.mem_append.mp hmem with h' | h'
      · rcases hpure _ h' with h'' | ⟨info, h''⟩
        · cases h''
        · cases h''
      · simp only [List.mem_singleton] at h'
        dsimp only
        omega
  · refine ⟨?_, fun h => by cases h⟩
    intro hist hmem
    rcases hpure _ hmem with h' | ⟨info, h'⟩
    · cases h'
    · cases h'

/-- Witness for C1: with the chain knowing address 100 at index 0
(`nextIndex = 1`) and `gapLength = 1`, a result touching address 100 drives
`history.nextIndex` to 1 and the gap to 0, so scanning continues (second
conjunct); with `gapLength = 0` on the same input the gap check fails and
`history` is emitted with gap at least 0 (first conjunct). -/
theorem chainDiscovery_update_gap_witness :
    ((ChainDiscovery.update
        (⟨⟨[(0, 100)], [(100, 0)], 1, 1⟩, ChainHistory.init, TxDatabase.init, 1⟩ :
          ChainDiscoveryState Nat)
        [⟨⟨"t", "x"⟩, [100]⟩]).2.2 = true ∧
      (ChainDiscovery.update
        (⟨⟨[(0, 100)], [(100, 0)], 1, 1⟩, ChainHistory.init, TxDatabase.init, 1⟩ :
          ChainDiscoveryState Nat)
        [⟨⟨"t", "x"⟩, [100]⟩]).1.gap <
        ((ChainDiscovery.update
          (⟨⟨[(0, 100)], [(100, 0)], 1, 1⟩, ChainHistory.init, TxDatabase.init, 1⟩ :
            ChainDiscoveryState Nat)
          [⟨⟨"t", "x"⟩, [100]⟩]).1.gapLength : Int)) ∧
      ((ChainDiscovery.update
          (⟨⟨[(0, 100)], [(100, 0)], 1, 1⟩, ChainHistory.init, TxDatabase.init, 0⟩ :
            ChainDiscoveryState Nat)
          [⟨⟨"t", "x"⟩, [100]⟩]).1.gapLength : Int) ≤
        (ChainDiscovery.update
          (⟨⟨[(0, 100)], [(100, 0)], 1, 1⟩, ChainHistory.init, TxDatabase.init, 0⟩ :
            ChainDiscoveryState Nat)
          [⟨⟨"t", "x"⟩, [100]⟩]).1.gap :=
  ⟨⟨by decide,
    (chainDiscovery_update_gap
      (⟨⟨[(0, 100)], [(100, 0)], 1, 1⟩, ChainHistory.init, TxDatabase.init, 1⟩ :
        ChainDiscoveryState Nat)
      [⟨⟨"t", "x"⟩, [100]⟩]).2 (by decide)⟩,
    (chainDiscovery_update_gap
      (⟨⟨[(0, 100)], [(100, 0)], 1, 1⟩, ChainHistory.init, TxDatabase.init, 0⟩ :
        ChainDiscoveryState Nat)
      [⟨⟨"t", "x"⟩, [100]⟩]).1
      ((ChainDiscovery.update
        (⟨⟨[(0, 100)], [(100, 0)], 1, 1⟩, ChainHistory.init, TxDatabase.init, 0⟩ :
          ChainDiscoveryState Nat)
        [⟨⟨"t", "x"⟩, [100]⟩]).1.history) (by decide)⟩

/-- C2 (what the code actually does on scenario S1): on a cold scan of an
empty chain — fresh state, one chunk of 20 addresses derived, `lookupTxs`
returning `[]` — the `update([])` step leaves the state unchanged, emits no
event at all (in particular no `history`), and does not continue scanning,
so exactly the one chunk is ever derived and the discovery stalls. -/
theorem coldScan_stalls :
    ChainDiscovery.update coldStart [] = (coldStart, [], false) ∧
      coldStart.chain.nextIndex = 20 ∧
      coldStart.history.nextIndex = 0 := by
  refine ⟨rfl, ?_, rfl⟩
  decide

end HDW
